import Mathlib

/-
Verification of the path / validation engine of the antd-forge repository.

The engine is embedded shallowly: every definition below mirrors one
function of the TypeScript source (file and symbol named in its doc
comment), with JavaScript values modelled by small inductive types and
JavaScript strict equality and truthiness made explicit.
-/

namespace AntdForge

/-- Model of a JavaScript value appearing as a path segment.  Per the
standard-schema contract an issue path segment is a property key (string or
number) or an object of shape `\x7b key \x7d` wrapping one; `jsnull` and
`jsundef` model the values checked explicitly by `normalizePathSegment`.
The payload of `wrap` is a full segment value, as nothing in the source
restricts it. -/
inductive Seg where
  | str (s : String)
  | num (n : Int)
  | wrap (k : Seg)
  | jsnull
  | jsundef
deriving DecidableEq, Repr

/-- JavaScript strict equality on segment values.  Primitives compare
structurally; two wrapper objects compare by reference, and the embedding
treats distinct wrapper occurrences as distinct objects, so `wrap` never
compares equal (the source only ever compares freshly received wrapper
objects against bare scalars, where this is exact). -/
def jsStrictEq : Seg → Seg → Bool
  | Seg.str a, Seg.str b => a == b
  | Seg.num a, Seg.num b => a == b
  | Seg.jsnull, Seg.jsnull => true
  | Seg.jsundef, Seg.jsundef => true
  | _, _ => false

/-- Embedding of `normalizePathSegment` from
`src/packages/antd-forge/src/internal/path-segments.ts` (lines 3-11):
null and undefined are returned unchanged, an object carrying a `key`
property yields that key (one level, no recursion), anything else is
returned unchanged. -/
def normalizePathSegment : Seg → Seg
  | Seg.jsnull => Seg.jsnull
  | Seg.jsundef => Seg.jsundef
  | Seg.wrap k => k
  | s => s

/-- Embedding of `arePathSegmentsEqual` (path-segments.ts lines 13-15):
strict equality after normalizing both sides. -/
def arePathSegmentsEqual (a b : Seg) : Bool :=
  jsStrictEq (normalizePathSegment a) (normalizePathSegment b)

/-- Embedding of `normalizePath` (path-segments.ts lines 17-21):
`path?.map(normalizePathSegment)`, so an absent path stays absent. -/
def normalizePath : Option (List Seg) → Option (List Seg)
  | none => none
  | some p => some (p.map normalizePathSegment)

/-- Model of an ant-design name-path-like input: absent (null or
undefined), a bare scalar segment, or an array of segments. -/
inductive NameLike where
  | undefName
  | scalar (s : Seg)
  | arr (xs : List Seg)
deriving DecidableEq, Repr

/-- Embedding of `normalizeNamePath` (path-segments.ts lines 29-34):
null and undefined become the empty array, a bare scalar becomes a
one-element array, an array is returned as is. -/
def normalizeNamePath : NameLike → List Seg
  | NameLike.undefName => []
  | NameLike.scalar s => [s]
  | NameLike.arr xs => xs

/-- Embedding of `arePathsEqual` (path-segments.ts lines 36-43): false if
either argument is null or undefined, false if the lengths differ,
otherwise `a.every((segment, index) => arePathSegmentsEqual(segment,
b[index]))`, which over equal-length arrays is the pairwise check below. -/
def arePathsEqual (a b : Option (List Seg)) : Bool :=
  match a, b with
  | none, _ => false
  | some _, none => false
  | some a, some b =>
    if a.length != b.length then false
    else (List.zip a b).all fun p => arePathSegmentsEqual p.1 p.2

/-- Embedding of `buildFullPath` from the name-prefix context module
(src/unnamed/part_005, lines 49-57): when the ambient path is empty the
declared path is returned itself (the very argument, no copy), otherwise
the two are spread into a fresh array. -/
def buildFullPath (pfx namePath : List Seg) : List Seg :=
  if pfx.length = 0 then namePath else pfx ++ namePath

-- ============================================================
-- Helper lemmas (shared)
-- ============================================================

theorem jsStrictEq_eq_of_true {a b : Seg} :
    jsStrictEq a b = true → a = b := by
  cases a <;> cases b <;> simp [jsStrictEq]

theorem arePathsEqual_none_left (b : Option (List Seg)) :
    arePathsEqual none b = false := rfl

theorem arePathsEqual_none_right (a : Option (List Seg)) :
    arePathsEqual a none = false := by
  cases a <;> rfl

theorem arePathsEqual_length_ne {a b : List Seg} (h : a.length ≠ b.length) :
    arePathsEqual (some a) (some b) = false := by
  simp [arePathsEqual, h]

theorem zip_all_segments_iff :
    ∀ (a b : List Seg), a.length = b.length →
      ((((List.zip a b).all fun p => arePathSegmentsEqual p.1 p.2) = true) ↔
        ∀ i : Nat, ∀ hi : i < a.length, ∀ hj : i < b.length,
          arePathSegmentsEqual (a.get ⟨i, hi⟩) (b.get ⟨i, hj⟩) = true)
  | [], [], _ => by simp
  | [], _ :: _, h => by simp at h
  | _ :: _, [], h => by simp at h
  | x :: xs, y :: ys, h => by
    have ih := zip_all_segments_iff xs ys (by simpa using h)
    simp only [List.zip_cons_cons, List.all_cons, Bool.and_eq_true, ih]
    constructor
    · rintro ⟨hxy, hrest⟩ i hi hj
      cases i with
      | zero => simpa using hxy
      | succ n =>
        simpa using hrest n (by simpa using hi) (by simpa using hj)
    · intro hptw
      refine ⟨by simpa using hptw 0 (by simp) (by simp), ?_⟩
      intro n hn hn2
      simpa using hptw (n + 1) (by simpa using hn) (by simpa using hn2)

theorem arePathsEqual_iff_of_length_eq {a b : List Seg}
    (h : a.length = b.length) :
    arePathsEqual (some a) (some b) = true ↔
      ∀ i : Nat, ∀ hi : i < a.length, ∀ hj : i < b.length,
        arePathSegmentsEqual (a.get ⟨i, hi⟩) (b.get ⟨i, hj⟩) = true := by
  rw [← zip_all_segments_iff a b h]
  simp [arePathsEqual, h]

/-- C2: arePathsEqual is false when either argument is absent, false when
the lengths differ, and otherwise true exactly when every segment of one
path strictly equals the corresponding segment of the other after
unwrapping any key-wrapper object on either side; in particular
equal(["a", \x7bkey: 2\x7d, "b"], ["a", 2, "b"]) is true and
equal(["a", "b"], ["a"]) is false. -/
theorem c2_arePathsEqual_spec :
    (∀ b : Option (List Seg), arePathsEqual none b = false) ∧
    (∀ a : Option (List Seg), arePathsEqual a none = false) ∧
    (∀ a b : List Seg, a.length ≠ b.length →
      arePathsEqual (some a) (some b) = false) ∧
    (∀ a b : List Seg, a.length = b.length →
      (arePathsEqual (some a) (some b) = true ↔
        ∀ i : Nat, ∀ hi : i < a.length, ∀ hj : i < b.length,
          jsStrictEq (normalizePathSegment (a.get ⟨i, hi⟩))
            (normalizePathSegment (b.get ⟨i, hj⟩)) = true)) ∧
    arePathsEqual (some [Seg.str "a", Seg.wrap (Seg.num 2), Seg.str "b"])
      (some [Seg.str "a", Seg.num 2, Seg.str "b"]) = true ∧
    arePathsEqual (some [Seg.str "a", Seg.str "b"]) (some [Seg.str "a"])
      = false := by
  refine ⟨arePathsEqual_none_left, arePathsEqual_none_right,
    fun a b h => arePathsEqual_length_ne h,
    fun a b h => arePathsEqual_iff_of_length_eq h, by decide, by decide⟩

/-- C3: buildFullPath concatenates the ambient path with the declared
path, and when the ambient path is empty it returns the declared path
itself (the source returns the argument without allocating, which the
empty-case branch of the definition mirrors). -/
theorem c3_buildFullPath_compose :
    (∀ a b : List Seg, buildFullPath a b = a ++ b) ∧
    (∀ b : List Seg, buildFullPath [] b = b) ∧
    buildFullPath [Seg.str "a"] [Seg.str "b"] = [Seg.str "a", Seg.str "b"] := by
  refine ⟨fun a b => ?_, fun b => rfl, rfl⟩
  cases a with
  | nil => simp [buildFullPath]
  | cons x xs => simp [buildFullPath]

-- ============================================================
-- Schema validation (standardSchemaValidator module)
-- ============================================================

/-- Model of a standard-schema validation issue: an optional path and a
message. -/
structure Issue where
  path : Option (List Seg)
  message : String
deriving DecidableEq, Repr

/-- Model of the result `standardValidate` resolves to: success carries the
parsed value; failure carries the issue list (the source treats any present
`issues` array, even an empty one, as failure). -/
inductive StdResult (T : Type) where
  | ok (value : T)
  | fail (issues : List Issue)

/-- Outcome of an ant-design rule validator: resolved, or rejected with an
error message. -/
inductive RuleOutcome where
  | resolve
  | reject (message : String)
deriving DecidableEq, Repr

/-- Predicate of the `issues.find` callback inside `createSchemaRule`: an
issue with an absent path never matches (`if (!issue.path) return false`);
otherwise the issue path is normalized segment-wise and compared to the
bound field path with `arePathsEqual`. -/
def issueMatches (fieldPath : List Seg) (issue : Issue) : Bool :=
  match issue.path with
  | none => false
  | some p => arePathsEqual (normalizePath (some p)) (some fieldPath)

/-- Embedding of the validator closure built by `createSchemaRule` in the
standardSchemaValidator module shipped with
`src/packages/base/src/internal/warning.ts` (lines 37-62).  The form store
is modelled by the whole-tree value `allValues` that `getFieldsValue(true)`
returns, and the schema by the pure function `validate` (the awaited
`standardValidate`). -/
def createSchemaRule {V T : Type} (validate : V → StdResult T)
    (fieldPath : List Seg) (allValues : V) : RuleOutcome :=
  match validate allValues with
  | StdResult.ok _ => RuleOutcome.resolve
  | StdResult.fail issues =>
    match issues.find? (issueMatches fieldPath) with
    | some issue => RuleOutcome.reject issue.message
    | none => RuleOutcome.resolve

-- ============================================================
-- Required-field precomputation (createFormHook)
-- ============================================================

/-- Model of a value a JavaScript call returns either immediately or as a
pending Promise. -/
inductive SyncOr (α : Type) where
  | sync (a : α)
  | promise

/-- Model of the raw standard-schema validate result read by the
required-field probe: a present `issues` array means failure; the success
value is never inspected there. -/
structure RawResult where
  issues : Option (List Issue)

/-- Embedding of the `requiredFields` computation of `createFormHook`
(src/packages/base/src/createFormHook.tsx lines 239-254), an
immediately-invoked closure run once per factory call.  Returns the
computed path set (none when the feature is off or disabled) paired with
whether the async-unsupported warning was emitted.  `emptyInput` stands
for the literal empty-object probe value. -/
def computeRequiredFields {V : Type}
    (validator : Option (V → SyncOr RawResult)) (emptyInput : V) :
    Option (List (List Seg)) × Bool :=
  match validator with
  | none => (none, false)
  | some validate =>
    match validate emptyInput with
    | SyncOr.promise => (none, true)
    | SyncOr.sync r =>
      match r.issues with
      | some issues => (some (issues.filterMap fun i => i.path), false)
      | none => (some [], false)

-- ============================================================
-- FormList getName helper (antd-forge FormList, getName lineage)
-- ============================================================

/-- JavaScript array-izing of an ant-design name value:
`Array.isArray(name) ? name : [name]`. -/
def jsArrayizeName : NameLike → List Seg
  | NameLike.arr xs => xs
  | NameLike.scalar s => [s]
  | NameLike.undefName => [Seg.jsundef]

/-- Embedding of the per-item `getName` helper built by `createFormList`
(src/packages/antd-forge/src/FormList.tsx, lines 242-267 of the getName
lineage): the declared list name is array-ized into `prefixPath` once, and
every rendered item closes over it and its own index, returning
`[...prefixPath, fieldIndex, ...relativePath]`. -/
def formListItemGetName (name : NameLike) (fieldIndex : Int)
    (relativePath : List Seg) : List Seg :=
  jsArrayizeName name ++ Seg.num fieldIndex :: relativePath

/-- Modelled from the spec: the path a caller builds by manual index
splicing, `[...listPath, index, ...rest]`, from the item index the list
exposes. -/
def manualIndexSplice (listPath : List Seg) (index : Int)
    (rest : List Seg) : List Seg :=
  listPath ++ Seg.num index :: rest

-- ============================================================
-- Theorems C1, C4, C8
-- ============================================================

/-- C1: the rule built by createSchemaRule validates the entire value tree
and rejects exactly when the failed validation reports an issue whose
path, after unwrapping wrapper segments, is pairwise equal to the bound
field path; the rejection carries the message of the first such issue;
when validation succeeds, or every issue differs in path, the rule
resolves. -/
theorem c1_createSchemaRule_spec {V T : Type} (validate : V → StdResult T)
    (P : List Seg) (v : V) :
    ((∃ m, createSchemaRule validate P v = RuleOutcome.reject m) ↔
      (∃ issues, validate v = StdResult.fail issues ∧
        ∃ i ∈ issues, issueMatches P i = true)) ∧
    (∀ m, createSchemaRule validate P v = RuleOutcome.reject m →
      ∃ issues i, validate v = StdResult.fail issues ∧
        issues.find? (issueMatches P) = some i ∧
        issueMatches P i = true ∧ i.message = m) ∧
    (createSchemaRule validate P v = RuleOutcome.resolve ∨
      ∃ m, createSchemaRule validate P v = RuleOutcome.reject m) := by
  cases hv : validate v with
  | ok t =>
    refine ⟨⟨?_, ?_⟩, ?_, Or.inl ?_⟩ <;>
      simp_all [createSchemaRule]
  | fail issues =>
    cases hf : issues.find? (issueMatches P) with
    | none =>
      have hnone := List.find?_eq_none.mp hf
      refine ⟨⟨?_, ?_⟩, ?_, Or.inl ?_⟩
      · intro ⟨m, hm⟩
        simp [createSchemaRule, hv, hf] at hm
      · rintro ⟨iss, hiss, i, hmem, hmatch⟩
        injection hiss with hiss
        subst hiss
        exact absurd hmatch (by simpa using hnone i hmem)
      · intro m hm
        simp [createSchemaRule, hv, hf] at hm
      · simp [createSchemaRule, hv, hf]
    | some i =>
      have hmatch : issueMatches P i = true := List.find?_some hf
      have hmem : i ∈ issues := List.mem_of_find?_eq_some hf
      refine ⟨⟨?_, ?_⟩, ?_, Or.inr ⟨i.message, ?_⟩⟩
      · intro _
        exact ⟨issues, rfl, i, hmem, hmatch⟩
      · intro _
        exact ⟨i.message, by simp [createSchemaRule, hv, hf]⟩
      · intro m hm
        simp only [createSchemaRule, hv, hf] at hm
        cases hm
        exact ⟨issues, i, rfl, hf, hmatch, rfl⟩
      · simp [createSchemaRule, hv, hf]

/-- C4: with a validator bound, the required-field set is computed by one
synchronous validation of the empty input, collecting the paths of the
resulting issues; a schema whose empty-input validation succeeds yields
the empty set; a pending (Promise) probe result emits the warning and
leaves the set undefined instead of being awaited.  The computation is an
immediately-invoked closure at factory level, run once per createFormHook
call.  The last conjunct instantiates the spec example: a schema requiring
name and age yields exactly those two paths. -/
theorem c4_requiredFields_spec {V : Type} (validate : V → SyncOr RawResult)
    (emptyInput : V) :
    (validate emptyInput = SyncOr.sync ⟨none⟩ →
      computeRequiredFields (some validate) emptyInput = (some [], false)) ∧
    (validate emptyInput = SyncOr.promise →
      computeRequiredFields (some validate) emptyInput = (none, true)) ∧
    (∀ issues, validate emptyInput = SyncOr.sync ⟨some issues⟩ →
      computeRequiredFields (some validate) emptyInput =
        (some (issues.filterMap fun i => i.path), false)) ∧
    computeRequiredFields
      (some fun _ : Unit => SyncOr.sync
        ⟨some [⟨some [Seg.str "name"], "Required"⟩,
               ⟨some [Seg.str "age"], "Required"⟩]⟩) ()
      = (some [[Seg.str "name"], [Seg.str "age"]], false) := by
  refine ⟨fun h => ?_, fun h => ?_, fun issues h => ?_, rfl⟩ <;>
    simp [computeRequiredFields, h]

/-- C8: for every list path, item index and relative path, the per-item
getName helper returns exactly the list path, then the index, then the
relative path, which is the same path manual index splicing builds; this
also holds when the list name was declared as a bare scalar. -/
theorem c8_getName_spec (listPath : List Seg) (i : Int) (rel : List Seg) :
    formListItemGetName (NameLike.arr listPath) i rel =
      listPath ++ Seg.num i :: rel ∧
    formListItemGetName (NameLike.arr listPath) i rel =
      manualIndexSplice listPath i rel ∧
    ∀ s : Seg, formListItemGetName (NameLike.scalar s) i rel =
      manualIndexSplice [s] i rel :=
  ⟨rfl, rfl, fun _ => rfl⟩

-- ============================================================
-- Field Binding, base lineage (src/packages/base/src/FormItem.tsx)
-- ============================================================

/-- JavaScript truthiness of an array value: every array object is truthy,
the empty array included.  Kept explicit because the base FormItem tests
its normalized name path for truthiness. -/
def jsArrayTruthy (_ : List Seg) : Bool := true

/-- Embedding of the full-path computation of the base FormItem
(src/packages/base/src/FormItem.tsx lines 101-111): the declared name is
normalized with `normalizeNamePath`, then the source computes
`namePath ? (hasPrefix ? buildFullPath(prefix, namePath) : namePath) :
undefined` where `hasPrefix` is `prefix.length > 0`.  Since
`normalizeNamePath` always returns an array and arrays are truthy, the
undefined branch is unreachable; the embedding keeps the truthiness test
so that this stays visible. -/
def formItemFullPath (ambient : List Seg) (name : NameLike) :
    Option (List Seg) :=
  let namePath := normalizeNamePath name
  if jsArrayTruthy namePath then
    some (if 0 < ambient.length then buildFullPath ambient namePath
          else namePath)
  else none

/-- Embedding of the schema-rule attachment condition of the base FormItem
(lines 122-127): a schema rule is built when `validator && fullPath` is
truthy. -/
def formItemAttachesSchemaRule (validatorPresent : Bool)
    (ambient : List Seg) (name : NameLike) : Bool :=
  validatorPresent &&
    (match formItemFullPath ambient name with
     | some p => jsArrayTruthy p
     | none => false)

/-- Embedding of the required computation of the base FormItem (lines
129-133), also that of the part_007 lineage (src/unnamed/part_007 lines
141-147): `requiredFields.some((path) => arePathsEqual(path, fullPath))`.
The entries are typed as issue paths, so each may itself be absent. -/
def formItemRequired (requiredFields : List (Option (List Seg)))
    (fullPath : List Seg) : Bool :=
  requiredFields.any fun p => arePathsEqual p (some fullPath)

/-- Embedding of the guard around the required computation of the base
FormItem (lines 129-133): the flag is computed only when
`fullPath && requiredFields` is truthy. -/
def formItemRequiredComputed (ambient : List Seg) (name : NameLike)
    (requiredFieldsPresent : Bool) : Bool :=
  (match formItemFullPath ambient name with
   | some p => jsArrayTruthy p
   | none => false) && requiredFieldsPresent

/-- Embedding of the scope the base FormItem provides to its children
(lines 147-157): in inherit mode (an ambient path is in effect) no new
scope is pushed and the children keep seeing the ambient path; otherwise
the resolved full path (or the empty path) becomes the scope of the
children. -/
def formItemChildScope (ambient : List Seg) (name : NameLike) : List Seg :=
  if 0 < ambient.length then ambient
  else (formItemFullPath ambient name).getD []

/-- Full paths resolved along a chain of nested FormItems, each rendered
as the child of the previous one, starting from the given ambient scope
path. -/
def renderChain (ambient : List Seg) :
    List NameLike → List (Option (List Seg))
  | [] => []
  | n :: ns =>
    formItemFullPath ambient n ::
      renderChain (formItemChildScope ambient n) ns

theorem renderChain_inherit (Q : List Seg) (hQ : Q ≠ []) :
    ∀ names : List NameLike,
      renderChain Q names =
        names.map fun n => some (Q ++ normalizeNamePath n) := by
  have hlen : 0 < Q.length := List.length_pos.mpr hQ
  have hne : Q.length ≠ 0 := Nat.pos_iff_ne_zero.mp hlen
  intro names
  induction names with
  | nil => rfl
  | cons n ns ih =>
    have hscope : formItemChildScope Q n = Q := by
      rw [formItemChildScope, if_pos hlen]
    simp only [renderChain, List.map_cons, hscope, ih]
    simp [formItemFullPath, jsArrayTruthy, hlen, buildFullPath, hne]

-- ============================================================
-- Field Binding, part_008 lineage (src/unnamed/part_008)
-- ============================================================

/-- JavaScript truthiness of a scalar segment value: the empty string and
the number zero are falsy, as are null and undefined; objects are
truthy. -/
def segTruthy : Seg → Bool
  | Seg.str s => !(s == "")
  | Seg.num n => !(n == 0)
  | Seg.wrap _ => true
  | Seg.jsnull => false
  | Seg.jsundef => false

/-- JavaScript truthiness of a name value: undefined is falsy, a bare
scalar follows scalar truthiness, an array is always truthy. -/
def nameTruthy : NameLike → Bool
  | NameLike.undefName => false
  | NameLike.scalar s => segTruthy s
  | NameLike.arr _ => true

/-- Embedding of the anti-duplication check of the part_008 FormItem
(src/unnamed/part_008 lines 43-45):
`formListPrefix.every((segment, index) => segment === namePath[index])`,
where indexing past the end of the declared path yields undefined. -/
def listPfxMatches : List Seg → List Seg → Bool
  | [], _ => true
  | s :: ss, [] => jsStrictEq s Seg.jsundef && listPfxMatches ss []
  | s :: ss, t :: ts => jsStrictEq s t && listPfxMatches ss ts

/-- Embedding of the name-stripping step of the part_008 FormItem (lines
38-49): when a list scope is active and a name was declared, a declared
path that already starts with the list path is sliced past it; otherwise
the declared name is kept. -/
def legacyStrippedName (listPath : List Seg) (declared : NameLike) :
    NameLike :=
  if 0 < listPath.length ∧ declared ≠ NameLike.undefName then
    let namePath := jsArrayizeName declared
    if listPfxMatches listPath namePath then
      NameLike.arr (namePath.drop listPath.length)
    else declared
  else declared

/-- Embedding of the validation field path of the part_008 FormItem (lines
74-91): with no validator, or with a falsy resolved name, no field path
is built; otherwise the (possibly stripped) name is array-ized and the
list path is prepended again. -/
def legacyFieldPath (validatorPresent : Bool) (listPath : List Seg)
    (declared : NameLike) : Option (List Seg) :=
  let name := legacyStrippedName listPath declared
  if !validatorPresent || !nameTruthy name then none
  else some (listPath ++ jsArrayizeName name)

/-- Embedding of the required computation of the part_008 FormItem (lines
95-99), shared verbatim with part_012 (lines 61-65): entries with an
absent path never match; otherwise raw length equality and segment-wise
JavaScript strict equality, with no wrapper unwrapping. -/
def legacyRequired (requiredFields : List (Option (List Seg)))
    (fieldPath : List Seg) : Bool :=
  requiredFields.any fun p =>
    match p with
    | none => false
    | some path =>
      path.length == fieldPath.length &&
      (List.zip path fieldPath).all fun q => jsStrictEq q.1 q.2

theorem listPfxMatches_of_take :
    ∀ (L namePath : List Seg), (∀ s ∈ L, jsStrictEq s s = true) →
      namePath.take L.length = L → listPfxMatches L namePath = true
  | [], _, _, _ => rfl
  | _ :: _, [], _, h => by simp at h
  | s :: ss, t :: ts, hrefl, h => by
    rw [List.length_cons, List.take_succ_cons, List.cons.injEq] at h
    obtain ⟨h1, h2⟩ := h
    subst h1
    simp only [listPfxMatches, Bool.and_eq_true]
    exact ⟨hrefl t (by simp),
      listPfxMatches_of_take ss ts (fun x hx => hrefl x (by simp [hx])) h2⟩

-- ============================================================
-- Theorems C5, C6, C7, C9
-- ============================================================

/-- C5: under one absolute-path provider at the top (a FormItem rendered
with the empty ambient scope, declaring path Q, which then seeds Q as the
scope of its children), every inherit-mode consumer below it, at any
nesting depth, resolves its declared relative path R to the same full
path Q ++ R, and none of them pushes a new scope, so the paths are never
successively re-prefixed. -/
theorem c5_inherit_no_compounding (Q : List Seg) (names : List NameLike)
    (hQ : Q ≠ []) :
    renderChain [] (NameLike.arr Q :: names) =
      some Q :: (names.map fun n => some (Q ++ normalizeNamePath n)) := by
  have hchain := renderChain_inherit Q hQ names
  simp only [renderChain, formItemFullPath, formItemChildScope]
  simp [jsArrayTruthy, normalizeNamePath, hchain]

/-- Witness for C5 at a concrete provider path and two nested inherit-mode
consumers, both declaring the relative path x. -/
theorem c5_witness :
    renderChain [] [NameLike.arr [Seg.str "address"],
        NameLike.arr [Seg.str "x"], NameLike.arr [Seg.str "x"]] =
      [some [Seg.str "address"],
       some [Seg.str "address", Seg.str "x"],
       some [Seg.str "address", Seg.str "x"]] := by
  have h := c5_inherit_no_compounding [Seg.str "address"]
    [NameLike.arr [Seg.str "x"], NameLike.arr [Seg.str "x"]] (by decide)
  simpa using h

/-- C6 counterexample: in the part_008 Field Binding lineage a
required-field entry whose segment arrives as a key-wrapper object does
not mark the field declared with the bare path as required, even though
the unwrapping path equality relates the two paths; so not every Field
Binding implementation decides membership through unwrapping equality. -/
theorem c6_counterexample_legacy_no_unwrap :
    legacyRequired [some [Seg.wrap (Seg.str "name")]] [Seg.str "name"]
        = false ∧
    arePathsEqual (some [Seg.wrap (Seg.str "name")])
        (some [Seg.str "name"]) = true := by
  exact ⟨by decide, by decide⟩

/-- C6 (amended): in the base FormItem (and the part_007 lineage) the
required flag is true exactly when some entry of the precomputed set
equals the full path under the unwrapping equality arePathsEqual, so a
wrapper-object entry still marks the bare path required; the part_008 and
part_012 lineage instead compares raw segments with strict equality and
misses the wrapper entry. -/
theorem c6_required_membership_amended
    (rf : List (Option (List Seg))) (fp : List Seg) :
    (formItemRequired rf fp = true ↔
      ∃ p ∈ rf, arePathsEqual p (some fp) = true) ∧
    formItemRequired [some [Seg.wrap (Seg.str "name")]] [Seg.str "name"]
        = true ∧
    legacyRequired [some [Seg.wrap (Seg.str "name")]] [Seg.str "name"]
        = false := by
  refine ⟨?_, by decide, by decide⟩
  simp [formItemRequired, List.any_eq_true]

/-- C7: in the part_008 lineage, a declared name that already starts with
the active list path (segment-wise, over scalar list-path segments) is
stripped of that leading list path before registration, and the list path
is prepended again when the validation field path is built, so the field
path used for schema validation is exactly the originally declared name
and no path is double-prefixed. -/
theorem c7_strip_then_reattach_roundtrip (L : List Seg) (n : NameLike)
    (hL : 0 < L.length) (hn : n ≠ NameLike.undefName)
    (hscalar : ∀ s ∈ L, jsStrictEq s s = true)
    (hpre : (jsArrayizeName n).take L.length = L) :
    legacyStrippedName L n =
      NameLike.arr ((jsArrayizeName n).drop L.length) ∧
    legacyFieldPath true L n = some (jsArrayizeName n) := by
  have hmatch := listPfxMatches_of_take L (jsArrayizeName n) hscalar hpre
  have h1 : legacyStrippedName L n =
      NameLike.arr ((jsArrayizeName n).drop L.length) := by
    rw [legacyStrippedName, if_pos ⟨hL, hn⟩]
    simp [hmatch]
  have h3 : L ++ (jsArrayizeName n).drop L.length = jsArrayizeName n := by
    have h4 := List.take_append_drop L.length (jsArrayizeName n)
    rw [hpre] at h4
    exact h4
  have h5 : legacyFieldPath true L n =
      some (L ++ (jsArrayizeName n).drop L.length) := by
    unfold legacyFieldPath
    rw [h1]
    rfl
  exact ⟨h1, by rw [h5, h3]⟩

/-- Witness for C7: list path users.0, declared full path
users.0.email. -/
theorem c7_witness :
    legacyStrippedName [Seg.str "users", Seg.num 0]
        (NameLike.arr [Seg.str "users", Seg.num 0, Seg.str "email"]) =
      NameLike.arr [Seg.str "email"] ∧
    legacyFieldPath true [Seg.str "users", Seg.num 0]
        (NameLike.arr [Seg.str "users", Seg.num 0, Seg.str "email"]) =
      some [Seg.str "users", Seg.num 0, Seg.str "email"] := by
  have h := c7_strip_then_reattach_roundtrip [Seg.str "users", Seg.num 0]
    (NameLike.arr [Seg.str "users", Seg.num 0, Seg.str "email"])
    (by decide) (by decide) (by decide) (by decide)
  simpa using h

/-- C9 (code evaluation at the failing input): a base FormItem given no
name does not resolve an undefined full path.  Because
normalizeNamePath(undefined) is the empty array and arrays are truthy,
the undefined branch of the source is dead: the full path becomes the
empty path (or, under a non-empty ambient scope, a copy of that scope), a
schema rule is attached when a validator is bound, and the required flag
is computed when the required set is present — where the claim and the
dead branch of the source itself expect no path, no rule and no required
computation. -/
theorem c9_unnamed_binding_eval :
    formItemFullPath [] NameLike.undefName = some [] ∧
    formItemAttachesSchemaRule true [] NameLike.undefName = true ∧
    formItemRequiredComputed [] NameLike.undefName true = true ∧
    formItemFullPath [Seg.str "address"] NameLike.undefName =
      some [Seg.str "address"] := by
  refine ⟨rfl, rfl, rfl, by decide⟩

-- ============================================================
-- Empty-value normalization (src/packages/base/src/normalizeHelpers.ts)
-- ============================================================

/-- Model of a JavaScript value tree handled by cleanEmptyValues.  Numbers
split into `jnan` (a number for which Number.isNaN is true) and `jnum`
(any other number); `jbool` stands for the primitives the function passes
through unchanged on its final line. -/
inductive JVal where
  | undef
  | jnull
  | jstr (s : String)
  | jnum (x : Int)
  | jnan
  | jbool (b : Bool)
  | jarr (items : List JVal)
  | jobj (fields : List (String × JVal))
deriving Repr

mutual

/-- Embedding of `cleanEmptyValues`
(src/packages/base/src/normalizeHelpers.ts lines 10-46), with `none`
standing for a JavaScript undefined result: undefined, null, the empty
string and NaN clean to undefined; arrays are cleaned element-wise
dropping undefined results and clean to undefined when nothing remains;
objects keep exactly the properties whose cleaned value is defined and
clean to undefined when none remains; everything else passes through. -/
def cleanEmptyValues : JVal → Option JVal
  | JVal.undef => none
  | JVal.jnull => none
  | JVal.jstr s => if s = "" then none else some (JVal.jstr s)
  | JVal.jnum x => some (JVal.jnum x)
  | JVal.jnan => none
  | JVal.jbool b => some (JVal.jbool b)
  | JVal.jarr items =>
    let cleaned := cleanItems items
    if cleaned.length = 0 then none else some (JVal.jarr cleaned)
  | JVal.jobj fields =>
    let cleaned := cleanFields fields
    if cleaned.length = 0 then none else some (JVal.jobj cleaned)

/-- The array branch of cleanEmptyValues:
`value.map((item) => cleanEmptyValues(item)).filter((item) => item !==
undefined)`. -/
def cleanItems : List JVal → List JVal
  | [] => []
  | x :: xs =>
    match cleanEmptyValues x with
    | some y => y :: cleanItems xs
    | none => cleanItems xs

/-- The object branch of cleanEmptyValues: the `Object.entries` loop
keeps a property exactly when its cleaned value is defined. -/
def cleanFields : List (String × JVal) → List (String × JVal)
  | [] => []
  | (k, v) :: rest =>
    match cleanEmptyValues v with
    | some w => (k, w) :: cleanFields rest
    | none => cleanFields rest

end

theorem mem_cleanItems : ∀ (xs : List JVal) (y : JVal),
    y ∈ cleanItems xs ↔ ∃ x ∈ xs, cleanEmptyValues x = some y
  | [], y => by simp [cleanItems]
  | x :: xs, y => by
    have ih := mem_cleanItems xs y
    cases h : cleanEmptyValues x with
    | none =>
      simp only [cleanItems, h, ih, List.mem_cons]
      constructor
      · rintro ⟨a, ha, hay⟩
        exact ⟨a, Or.inr ha, hay⟩
      · rintro ⟨a, ha | ha, hay⟩
        · subst ha
          rw [h] at hay
          cases hay
        · exact ⟨a, ha, hay⟩
    | some y0 =>
      simp only [cleanItems, h, List.mem_cons, ih]
      constructor
      · rintro (rfl | ⟨a, ha, hay⟩)
        · exact ⟨x, Or.inl rfl, h⟩
        · exact ⟨a, Or.inr ha, hay⟩
      · rintro ⟨a, ha | ha, hay⟩
        · subst ha
          rw [h] at hay
          injection hay with hy
          exact Or.inl hy.symm
        · exact Or.inr ⟨a, ha, hay⟩

theorem mem_cleanFields : ∀ (fs : List (String × JVal)) (p : String × JVal),
    p ∈ cleanFields fs ↔
      ∃ q ∈ fs, q.1 = p.1 ∧ cleanEmptyValues q.2 = some p.2
  | [], p => by simp [cleanFields]
  | (k, v) :: fs, p => by
    have ih := mem_cleanFields fs p
    cases h : cleanEmptyValues v with
    | none =>
      simp only [cleanFields, h, ih, List.mem_cons]
      constructor
      · rintro ⟨a, ha, hak, hav⟩
        exact ⟨a, Or.inr ha, hak, hav⟩
      · rintro ⟨a, ha | ha, hak, hav⟩
        · subst ha
          rw [h] at hav
          cases hav
        · exact ⟨a, ha, hak, hav⟩
    | some w =>
      simp only [cleanFields, h, List.mem_cons, ih]
      constructor
      · rintro (rfl | ⟨a, ha, hak, hav⟩)
        · exact ⟨(k, v), Or.inl rfl, rfl, h⟩
        · exact ⟨a, Or.inr ha, hak, hav⟩
      · rintro ⟨a, ha | ha, hak, hav⟩
        · subst ha
          rw [h] at hav
          injection hav with hv
          cases p
          simp only at hak hv
          subst hak
          subst hv
          exact Or.inl rfl
        · exact Or.inr ⟨a, ha, hak, hav⟩

theorem cleanItems_of_fixed :
    ∀ (l : List JVal), (∀ y ∈ l, cleanEmptyValues y = some y) →
      cleanItems l = l
  | [], _ => rfl
  | x :: xs, h => by
    have hx := h x (by simp)
    simp only [cleanItems, hx]
    rw [cleanItems_of_fixed xs fun y hy => h y (by simp [hy])]

theorem cleanFields_of_fixed :
    ∀ (l : List (String × JVal)),
      (∀ p ∈ l, cleanEmptyValues p.2 = some p.2) → cleanFields l = l
  | [], _ => rfl
  | (k, v) :: rest, h => by
    have hv := h (k, v) (by simp)
    simp only at hv
    simp only [cleanFields, hv]
    rw [cleanFields_of_fixed rest fun p hp => h p (by simp [hp])]

theorem cleanEmptyValues_ne_some_undef (v : JVal) :
    cleanEmptyValues v ≠ some JVal.undef := by
  cases v with
  | undef => simp [cleanEmptyValues]
  | jnull => simp [cleanEmptyValues]
  | jnan => simp [cleanEmptyValues]
  | jnum x => simp [cleanEmptyValues]
  | jbool b => simp [cleanEmptyValues]
  | jstr s =>
    simp only [cleanEmptyValues]
    split <;> simp
  | jarr items =>
    simp only [cleanEmptyValues]
    split <;> simp
  | jobj fields =>
    simp only [cleanEmptyValues]
    split <;> simp

theorem clean_output_shape (v w : JVal) (hw : cleanEmptyValues v = some w) :
    w ≠ JVal.undef ∧ w ≠ JVal.jnull ∧ w ≠ JVal.jnan ∧ w ≠ JVal.jstr "" ∧
    (∀ xs, w = JVal.jarr xs → xs ≠ [] ∧ JVal.undef ∉ xs) ∧
    (∀ fs, w = JVal.jobj fs → fs ≠ []) := by
  cases v with
  | undef => simp [cleanEmptyValues] at hw
  | jnull => simp [cleanEmptyValues] at hw
  | jnan => simp [cleanEmptyValues] at hw
  | jnum x =>
    simp only [cleanEmptyValues, Option.some.injEq] at hw
    subst hw
    simp
  | jbool b =>
    simp only [cleanEmptyValues, Option.some.injEq] at hw
    subst hw
    simp
  | jstr s =>
    simp only [cleanEmptyValues] at hw
    split at hw
    next => cases hw
    next h =>
      injection hw with hw
      subst hw
      simp [h]
  | jarr items =>
    simp only [cleanEmptyValues] at hw
    split at hw
    next => cases hw
    next h =>
      injection hw with hw
      subst hw
      refine ⟨by simp, by simp, by simp, by simp, ?_, by simp⟩
      intro xs hxs
      injection hxs with hxs
      subst hxs
      refine ⟨fun hnil => h (by simp [hnil]), fun hmem => ?_⟩
      obtain ⟨x, _, hx⟩ := (mem_cleanItems items JVal.undef).mp hmem
      exact cleanEmptyValues_ne_some_undef x hx
  | jobj fields =>
    simp only [cleanEmptyValues] at hw
    split at hw
    next => cases hw
    next h =>
      injection hw with hw
      subst hw
      refine ⟨by simp, by simp, by simp, by simp, by simp, ?_⟩
      intro fs hfs
      injection hfs with hfs
      subst hfs
      exact fun hnil => h (by simp [hnil])

theorem clean_fixpoint_aux :
    ∀ (N : Nat) (v : JVal), sizeOf v ≤ N →
      ∀ w, cleanEmptyValues v = some w → cleanEmptyValues w = some w := by
  intro N
  induction N with
  | zero =>
    intro v hv
    exfalso
    have : 0 < sizeOf v := by cases v <;> simp
    omega
  | succ n ih =>
    intro v hv w hw
    cases v with
    | undef => simp [cleanEmptyValues] at hw
    | jnull => simp [cleanEmptyValues] at hw
    | jnan => simp [cleanEmptyValues] at hw
    | jnum x =>
      simp only [cleanEmptyValues, Option.some.injEq] at hw
      subst hw
      simp [cleanEmptyValues]
    | jbool b =>
      simp only [cleanEmptyValues, Option.some.injEq] at hw
      subst hw
      simp [cleanEmptyValues]
    | jstr s =>
      simp only [cleanEmptyValues] at hw
      split at hw
      next => cases hw
      next h =>
        injection hw with hw
        subst hw
        simp [cleanEmptyValues, h]
    | jarr items =>
      simp only [cleanEmptyValues] at hw
      split at hw
      next => cases hw
      next h =>
        injection hw with hw
        subst hw
        have hsz : sizeOf items ≤ n := by
          have : sizeOf (JVal.jarr items) = 1 + sizeOf items := by simp
          omega
        have hfix : ∀ y ∈ cleanItems items, cleanEmptyValues y = some y := by
          intro y hy
          obtain ⟨x, hx, hxy⟩ := (mem_cleanItems items y).mp hy
          have hxs : sizeOf x ≤ n := by
            have := List.sizeOf_lt_of_mem hx
            omega
          exact ih x hxs y hxy
        have hlst := cleanItems_of_fixed _ hfix
        simp only [cleanEmptyValues, hlst]
        rw [if_neg h]
    | jobj fields =>
      simp only [cleanEmptyValues] at hw
      split at hw
      next => cases hw
      next h =>
        injection hw with hw
        subst hw
        have hsz : sizeOf fields ≤ n := by
          have : sizeOf (JVal.jobj fields) = 1 + sizeOf fields := by simp
          omega
        have hfix : ∀ p ∈ cleanFields fields, cleanEmptyValues p.2 = some p.2 := by
          intro p hp
          obtain ⟨q, hq, _, hqv⟩ := (mem_cleanFields fields p).mp hp
          have hqs : sizeOf q.2 ≤ n := by
            have h1 := List.sizeOf_lt_of_mem hq
            have h2 : sizeOf q = 1 + sizeOf q.1 + sizeOf q.2 := by
              cases q
              simp
            omega
          exact ih q.2 hqs p.2 hqv
        have hlst := cleanFields_of_fixed _ hfix
        simp only [cleanEmptyValues, hlst]
        rw [if_neg h]

theorem clean_fixpoint {v w : JVal} (hw : cleanEmptyValues v = some w) :
    cleanEmptyValues w = some w :=
  clean_fixpoint_aux (sizeOf v) v le_rfl w hw

/-- C10: cleanEmptyValues never returns the empty string, null, NaN, an
empty array, an array containing an undefined element, or an emptied-out
object — those inputs clean to undefined instead — and it is idempotent:
cleaning a cleaned value changes nothing. -/
theorem c10_cleanEmptyValues_spec (v : JVal) :
    cleanEmptyValues v ≠ some (JVal.jstr "") ∧
    cleanEmptyValues v ≠ some JVal.jnull ∧
    cleanEmptyValues v ≠ some JVal.jnan ∧
    cleanEmptyValues v ≠ some (JVal.jarr []) ∧
    (∀ xs, cleanEmptyValues v = some (JVal.jarr xs) → JVal.undef ∉ xs) ∧
    cleanEmptyValues v ≠ some (JVal.jobj []) ∧
    (cleanEmptyValues v).bind cleanEmptyValues = cleanEmptyValues v ∧
    cleanEmptyValues (JVal.jstr "") = none ∧
    cleanEmptyValues JVal.jnull = none ∧
    cleanEmptyValues JVal.jnan = none ∧
    cleanEmptyValues (JVal.jarr []) = none := by
  refine ⟨?_, ?_, ?_, ?_, ?_, ?_, ?_, ?_, ?_, ?_, ?_⟩
  · intro h
    exact (clean_output_shape v _ h).2.2.2.1 rfl
  · intro h
    exact (clean_output_shape v _ h).2.1 rfl
  · intro h
    exact (clean_output_shape v _ h).2.2.1 rfl
  · intro h
    exact ((clean_output_shape v _ h).2.2.2.2.1 [] rfl).1 rfl
  · intro xs h
    exact ((clean_output_shape v _ h).2.2.2.2.1 xs rfl).2
  · intro h
    exact (clean_output_shape v _ h).2.2.2.2.2 [] rfl rfl
  · cases hv : cleanEmptyValues v with
    | none => rfl
    | some w => simpa [Option.bind] using clean_fixpoint hv
  · simp [cleanEmptyValues]
  · simp [cleanEmptyValues]
  · simp [cleanEmptyValues]
  · simp [cleanEmptyValues, cleanItems]

end AntdForge
